import Mathlib

/-!
Verification of the CAN log parser / correlation engine (CANalyzer.py, analyze_log.py).

Shallow embedding conventions:
* Python floats are modelled as exact rationals `ℚ` (ideal real arithmetic).
* A log line is modelled by its whitespace-token list (the result of
  `line.strip().split()`); Python's `int(...)` / `float(...)` conversions are
  modelled by `pyInt` / `pyFloat` on plain decimal literals.
* Python's stable `list.sort` / `sorted` is modelled by `List.insertionSort`
  (a stable sort is observationally unique, so any stable sort is a faithful
  model of Timsort restricted to the comparisons the program makes).
* Python dicts (insertion ordered) are modelled as association lists
  that append a key on first insertion.
* Python sets whose only use is membership are modelled by lists with
  membership tests (duplicates are irrelevant for membership).
* `while` loops are modelled with an explicit fuel argument large enough to
  cover every iteration the Python loop performs.
-/

/-- A single CAN message, mirroring the `CANMessage` dataclass (fields in
source order). `raw_line` of a token-level model is the tokens re-joined. -/
structure CANMessage where
  channel : Int
  can_id : String
  format_flag : String
  data_length : Int
  data_bytes : List String
  timestamp : ℚ
  direction : String
  raw_line : String
  line_number : Nat
deriving DecidableEq

/-- Model of `CANMessage.data_signature`: `' '.join(self.data_bytes)`. -/
def CANMessage.data_signature (m : CANMessage) : String :=
  String.intercalate " " m.data_bytes

/-- Candidate command match, mirroring the `CandidateCommandMatch` dataclass.
The three timing statistics use `Option ℚ`, with `none` modelling the
`float('inf')` sentinel stored when there are no matched deltas. -/
structure CandidateCommandMatch where
  can_id : String
  data_signature : String
  data_length : Int
  sample_timestamp : ℚ
  sample_line : Nat
  coverage : ℚ
  median_abs_delta : Option ℚ
  avg_abs_delta : Option ℚ
  max_abs_delta : Option ℚ
  confidence : ℚ
deriving DecidableEq

/-- Ordering of messages by timestamp, the key of `sorted(msgs, key=lambda m: m.timestamp)`. -/
def msgLe (a b : CANMessage) : Prop := a.timestamp ≤ b.timestamp

instance : DecidableRel msgLe := fun a b =>
  inferInstanceAs (Decidable (a.timestamp ≤ b.timestamp))

instance : IsTotal CANMessage msgLe :=
  ⟨fun a b => le_total a.timestamp b.timestamp⟩

instance : IsTrans CANMessage msgLe :=
  ⟨fun _ _ _ h h' => le_trans h h'⟩

/-- Descending-confidence ordering used by
`candidates.sort(key=lambda c: c.confidence, reverse=True)`. -/
def candGe (a b : CandidateCommandMatch) : Prop := b.confidence ≤ a.confidence

instance : DecidableRel candGe := fun a b =>
  inferInstanceAs (Decidable (b.confidence ≤ a.confidence))

/-- Python's `min(candidates, key=key)`: first element attaining the minimal
key. (`min` on an empty list raises; the default is never reached here.) -/
def pyMinBy (key : ℚ → ℚ) : List ℚ → ℚ
  | [] => 0
  | x :: xs => xs.foldl (fun best y => if key y < key best then y else best) x

/-- The `while lo < hi` binary-search loop of `_nearest_delta`, with fuel.
`fuel = sorted_ts.length` always suffices, since `hi - lo` shrinks every
iteration. -/
def nearestDeltaLoop : Nat → List ℚ → ℚ → Nat → Nat → Nat
  | 0, _, _, lo, _ => lo
  | fuel + 1, ts, target, lo, hi =>
    if lo < hi then
      if ts.getD ((lo + hi) / 2) 0 < target then
        nearestDeltaLoop fuel ts target ((lo + hi) / 2 + 1) hi
      else nearestDeltaLoop fuel ts target lo ((lo + hi) / 2)
    else lo

/-- Model of `CANDataPatternAnalyzer._nearest_delta`: binary search for the insertion
point, then compare the floor and ceiling candidates. -/
def nearest_delta (sorted_ts : List ℚ) (target : ℚ) : Option ℚ :=
  if sorted_ts.isEmpty then none
  else
    let n := sorted_ts.length
    let lo := nearestDeltaLoop n sorted_ts target 0 (n - 1)
    let cands :=
      (if lo < n then [sorted_ts.getD lo 0] else []) ++
      (if 0 < lo then [sorted_ts.getD (lo - 1) 0] else [])
    let nearest := pyMinBy (fun x => |x - target|) cands
    some (nearest - target)

/-- Model of `statistics.median`: sort, take the middle element (odd length) or the
mean of the two middle elements (even length). Only applied to non-empty
lists by the program. -/
def pyMedian (l : List ℚ) : ℚ :=
  let s := List.insertionSort (· ≤ ·) l
  let n := s.length
  if n % 2 = 1 then s.getD (n / 2) 0
  else (s.getD (n / 2 - 1) 0 + s.getD (n / 2) 0) / 2

/-- Model of `statistics.mean`: sum divided by length. -/
def pyMean (l : List ℚ) : ℚ := l.foldl (· + ·) 0 / l.length

/-- Python's `max` on a list of numbers (first maximal element; empty raises,
default never reached). -/
def pyMaxList : List ℚ → ℚ
  | [] => 0
  | x :: xs => xs.foldl (fun best y => if best < y then y else best) x

/-- The tightness score: `tightness = 1.0 / (1.0 + median_abs) if median_abs != float('inf') else 0.0`. -/
def tightnessOf : Option ℚ → ℚ
  | some m => 1 / (1 + m)
  | none => 0

/-- The matching loop of `find_command_candidates`: for each fire time, the
nearest delta within the radius, paired with the matched timestamp `ft + d`
(`match_deltas` and `matched_timestamps` zipped together). -/
def matchDeltas (ts : List ℚ) (target_times : List ℚ) (search_radius : ℚ) :
    List (ℚ × ℚ) :=
  target_times.filterMap fun ft =>
    match nearest_delta ts ft with
    | none => none
    | some nd => if |nd| > search_radius then none else some (nd, ft + nd)

/-- One step of building an insertion-ordered list of distinct strings. -/
def dedupStep (ks : List String) (s : String) : List String :=
  if ks.any (fun y => decide (y = s)) then ks else ks ++ [s]

/-- Distinct strings of a list, in order of first occurrence (models iterating
a Python set built from the list, pinned to insertion order). -/
def dedupFirst (l : List String) : List String := l.foldl dedupStep []

/-- Model of `sum(1 for m in msgs_sorted if m.can_id == cid)`. -/
def countCanId (msgs : List CANMessage) (cid : String) : Nat :=
  (msgs.filter fun m => decide (m.can_id = cid)).length

/-- Model of `max(can_ids, key=lambda cid: sum(1 for m in msgs_sorted if m.can_id == cid))`,
with the set `can_ids` iterated in first-occurrence order. -/
def pickCanId (msgs_sorted : List CANMessage) : String :=
  match dedupFirst (msgs_sorted.map (·.can_id)) with
  | [] => ""
  | i :: rest =>
    rest.foldl
      (fun best cid =>
        if countCanId msgs_sorted best < countCanId msgs_sorted cid then cid
        else best) i

/-- One step of `self._messages_by_pattern.setdefault(msg.data_signature, []).append(msg)`. -/
def addToPattern (acc : List (String × List CANMessage)) (m : CANMessage) :
    List (String × List CANMessage) :=
  if acc.any (fun e => decide (e.1 = m.data_signature)) then
    acc.map fun e =>
      if e.1 = m.data_signature then (e.1, e.2 ++ [m]) else e
  else acc ++ [(m.data_signature, [m])]

/-- The `_messages_by_pattern` index built in `CANDataPatternAnalyzer.__init__`:
an insertion-ordered dict from signature to the messages carrying it. -/
def messages_by_pattern (messages : List CANMessage) :
    List (String × List CANMessage) :=
  messages.foldl addToPattern []

/-- The body of the per-pattern loop of `find_command_candidates` after the
window gate: matching, coverage test, statistics, and candidate construction.
`msgs_sorted` is never empty when this is reached; defaults for `[0]` on an
empty list are arbitrary. -/
def scorePattern (target_times : List ℚ) (search_radius min_coverage : ℚ)
    (pattern can_id : String) (msgs_sorted : List CANMessage) :
    Option CandidateCommandMatch :=
  let ts := msgs_sorted.map (·.timestamp)
  let md := matchDeltas ts target_times search_radius
  let coverage :=
    if target_times.isEmpty then 0
    else ((md.length : ℚ) / (target_times.length : ℚ))
  if coverage < min_coverage then none
  else
    let abs_deltas := (md.map Prod.fst).map fun d => |d|
    let median_abs := if abs_deltas.isEmpty then none else some (pyMedian abs_deltas)
    let avg_abs := if abs_deltas.isEmpty then none else some (pyMean abs_deltas)
    let max_abs := if abs_deltas.isEmpty then none else some (pyMaxList abs_deltas)
    let confidence := 7/10 * coverage + 3/10 * tightnessOf median_abs
    let sample_timestamp :=
      match md.map Prod.snd with
      | [] => (match msgs_sorted with | [] => 0 | m :: _ => m.timestamp)
      | t :: _ => t
    let sample_line :=
      ((msgs_sorted.find? fun m =>
          decide (|m.timestamp - sample_timestamp| < 1/1000)).map
        (·.line_number)).getD
        (match msgs_sorted with | [] => 0 | m :: _ => m.line_number)
    some
      { can_id := can_id
        data_signature := pattern
        data_length := (match msgs_sorted with | [] => 0 | m :: _ => m.data_length)
        sample_timestamp := sample_timestamp
        sample_line := sample_line
        coverage := coverage
        median_abs_delta := median_abs
        avg_abs_delta := avg_abs
        max_abs_delta := max_abs
        confidence := confidence }

/-- One iteration of the `for pattern, msgs in self._messages_by_pattern.items()`
loop: sort the occurrences, pick the representative identifier, apply the hard
all-occurrences-in-window rejection gate, then score. `continue` is `none`. -/
def processPattern (target_times fire_time_windows : List ℚ)
    (search_radius min_coverage : ℚ) (pm : String × List CANMessage) :
    Option CandidateCommandMatch :=
  let msgs_sorted := List.insertionSort msgLe pm.2
  if msgs_sorted.all fun m =>
      fire_time_windows.any fun w => decide (w = m.timestamp) then
    scorePattern target_times search_radius min_coverage pm.1
      (pickCanId msgs_sorted) msgs_sorted
  else none

/-- The fire-window set of `find_command_candidates`: every message timestamp
within `search_radius` of some fire time (the nested `for ft ... for msg ...`
loop; kept as a list, membership being its only use). -/
def fireWindows (messages : List CANMessage) (target_times : List ℚ)
    (search_radius : ℚ) : List ℚ :=
  (target_times.map fun ft =>
    (messages.filter fun m =>
      decide (|m.timestamp - ft| ≤ search_radius)).map (·.timestamp)).flatten

/-- Model of `CANDataPatternAnalyzer.find_command_candidates`. -/
def find_command_candidates (messages : List CANMessage) (fire_times : List ℚ)
    (search_radius min_coverage : ℚ) (max_candidates : Nat) :
    List CandidateCommandMatch :=
  if fire_times.isEmpty || messages.isEmpty then []
  else
    let target_times := List.insertionSort (· ≤ ·) fire_times
    let candidates :=
      (messages_by_pattern messages).filterMap
        (processPattern target_times
          (fireWindows messages target_times search_radius)
          search_radius min_coverage)
    (List.insertionSort candGe candidates).take max_candidates

/-- One step of `if pattern not in first_occurrence: first_occurrence[pattern] = msg.timestamp`. -/
def firstOccStep (acc : List (String × ℚ)) (m : CANMessage) :
    List (String × ℚ) :=
  if acc.any (fun e => decide (e.1 = m.data_signature)) then acc
  else acc ++ [(m.data_signature, m.timestamp)]

/-- Model of `CANDataPatternAnalyzer._get_first_occurrence_times`: per signature, the
timestamp of the first message (in input order) carrying it, built as an
insertion-ordered dict. -/
def get_first_occurrence_times (messages : List CANMessage) :
    List (String × ℚ) :=
  messages.foldl firstOccStep []

/-- Lookup in an association list modelling a Python dict. -/
def lookupPattern (l : List (String × ℚ)) (p : String) : Option ℚ :=
  ((l.find? fun e => decide (e.1 = p)).map (·.2))

/-- Model of `filter_by_unique_data_after` (identical logic in both source files):
keep every message whose signature first appeared at or after the threshold. -/
def filter_by_unique_data_after (messages : List CANMessage)
    (min_timestamp : ℚ) : List CANMessage :=
  if messages.isEmpty then []
  else
    let first_occurrence := get_first_occurrence_times messages
    let valid_patterns :=
      (first_occurrence.filter fun e => decide (min_timestamp ≤ e.2)).map (·.1)
    messages.filter fun m =>
      valid_patterns.any fun p => decide (p = m.data_signature)

/-- Model of `sum(1 for a, b in zip(ref_bytes, msg_bytes) if a != b)`. -/
def countDiffs (ref_bytes msg_bytes : List String) : Nat :=
  ((ref_bytes.zip msg_bytes).filter fun p => decide (p.1 ≠ p.2)).length

/-- Helper for `pySplit`: accumulate the current (reversed) token while
scanning characters. -/
def splitWsAux : List Char → List Char → List (List Char)
  | [], cur => if cur.isEmpty then [] else [cur.reverse]
  | c :: rest, cur =>
    if c.isWhitespace then
      if cur.isEmpty then splitWsAux rest []
      else cur.reverse :: splitWsAux rest []
    else splitWsAux rest (c :: cur)

/-- Python's `str.split()` with no argument: split on whitespace runs,
dropping empty tokens. -/
def pySplit (s : String) : List String :=
  (splitWsAux s.toList []).map fun cs => String.mk cs

/-- One iteration of the message loop of `find_similar_patterns`: skip
length mismatches, keep strictly positive difference counts within the bound,
and record each distinct signature once. -/
def similarStep (ref_bytes : List String) (max_differences : Nat)
    (acc : List (String × Nat)) (m : CANMessage) : List (String × Nat) :=
  if m.data_bytes.length ≠ ref_bytes.length then acc
  else
    let differences := countDiffs ref_bytes m.data_bytes
    if 0 < differences ∧ differences ≤ max_differences then
      if (acc.map Prod.fst).any
          (fun p => decide (p = m.data_signature)) then acc
      else acc ++ [(m.data_signature, differences)]
    else acc

/-- Model of `find_similar_patterns` (identical in both source files): all distinct
signatures of equal payload length within the Hamming bound, excluding exact
matches, sorted ascending by difference count (stable). -/
def find_similar_patterns (messages : List CANMessage)
    (reference_pattern : String) (max_differences : Nat) :
    List (String × Nat) :=
  List.insertionSort (fun a b => a.2 ≤ b.2)
    (messages.foldl (similarStep (pySplit reference_pattern) max_differences) [])

/-- Decimal digit accumulator for `pyInt` / `pyFloat`. -/
def digitsVal (cs : List Char) : Nat :=
  cs.foldl (fun acc c => acc * 10 + (c.toNat - 48)) 0

/-- Python's `int(s)` restricted to plain decimal literals (optional sign,
then digits). Other accepted spellings (whitespace, underscores, bases) do
not occur in the logs and are conservatively rejected. -/
def pyInt (s : String) : Option Int :=
  match s.toList with
  | [] => none
  | '-' :: rest =>
    if rest.isEmpty then none
    else if rest.all Char.isDigit then some (-(digitsVal rest : Int)) else none
  | '+' :: rest =>
    if rest.isEmpty then none
    else if rest.all Char.isDigit then some ((digitsVal rest : Int)) else none
  | cs => if cs.all Char.isDigit then some ((digitsVal cs : Int)) else none

/-- Unsigned part of `pyFloat`: `digits`, `digits.digits`, `.digits` or
`digits.`. -/
def pyFloatCore (cs : List Char) : Option ℚ :=
  let ip := cs.takeWhile Char.isDigit
  let rest := cs.dropWhile Char.isDigit
  match rest with
  | [] => if ip.isEmpty then none else some ((digitsVal ip : ℚ))
  | '.' :: fp =>
    if fp.all Char.isDigit then
      if ip.isEmpty && fp.isEmpty then none
      else some ((digitsVal ip : ℚ) + (digitsVal fp : ℚ) / (10 ^ fp.length : ℚ))
    else none
  | _ => none

/-- Python's `float(s)` restricted to plain decimal literals, with the exact
rational value of the written decimal (ideal-arithmetic model of the binary
float). -/
def pyFloat (s : String) : Option ℚ :=
  match s.toList with
  | '-' :: rest => (pyFloatCore rest).map fun q => -q
  | '+' :: rest => pyFloatCore rest
  | cs => pyFloatCore cs

/-- Python list slice `l[a:b]` with step 1, including negative-index
normalization. -/
def pySlice (l : List α) (a b : Int) : List α :=
  let n : Int := l.length
  let a' := if a < 0 then max 0 (n + a) else min a n
  let b' := if b < 0 then max 0 (n + b) else min b n
  (l.take b'.toNat).drop a'.toNat

/-- Python list indexing `l[i]`: negative indices count from the end,
out-of-range raises `IndexError` (modelled as `none`). -/
def pyIndex (l : List α) (i : Int) : Option α :=
  if i < 0 then
    let j := (l.length : Int) + i
    if j < 0 then none else l.get? j.toNat
  else l.get? i.toNat

/-- Model of `CANLogParser._parse_line`, at the level of the token list
`parts = line.strip().split()` (the empty-line early return coincides with
the `len(parts) < 6` rejection). A caught `ValueError`/`IndexError` is
`none`. -/
def parse_line (parts : List String) (line_num : Nat) : Option CANMessage :=
  if parts.length < 6 then none
  else
    match pyInt (parts.getD 0 "") with
    | none => none
    | some channel =>
      let can_id := parts.getD 1 ""
      let format_flag := parts.getD 2 ""
      match pyInt (parts.getD 3 "") with
      | none => none
      | some data_length =>
        if (parts.length : Int) < 4 + data_length + 2 then none
        else
          let data_bytes := pySlice parts 4 (4 + data_length)
          match pyIndex parts (4 + data_length) with
          | none => none
          | some tsTok =>
            match pyFloat tsTok with
            | none => none
            | some timestamp =>
              match
                (if (parts.length : Int) > 4 + data_length + 1 then
                  pyIndex parts (4 + data_length + 1)
                else some "") with
              | none => none
              | some direction =>
                if (data_bytes.length : Int) ≠ data_length then none
                else
                  some
                    { channel := channel
                      can_id := can_id
                      format_flag := format_flag
                      data_length := data_length
                      data_bytes := data_bytes
                      timestamp := timestamp
                      direction := direction
                      raw_line := String.intercalate " " parts
                      line_number := line_num }

/-- Model of `CANDataParser.parse_line` (analyze_log.py): identical to
`CANLogParser._parse_line` except for the leading token-level
`"ErrorFrame" in parts` check. -/
def CANDataParser_parse_line (parts : List String) (line_num : Nat) :
    Option CANMessage :=
  if 5 ≤ parts.length ∧ parts.any (fun t => decide (t = "ErrorFrame")) then none
  else parse_line parts line_num

/-- Boolean check that `p` is a prefix of `l` (character lists). -/
def charsPrefixB : List Char → List Char → Bool
  | [], _ => true
  | _ :: _, [] => false
  | a :: ps, b :: ls => a == b && charsPrefixB ps ls

/-- Boolean check that `p` occurs contiguously inside `l` (character lists). -/
def charsContains (p : List Char) : List Char → Bool
  | [] => charsPrefixB p []
  | b :: ls => charsPrefixB p (b :: ls) || charsContains p ls

/-- Model of `"ErrorFrame" in line` for a tokenized line: the marker contains no
whitespace, so it occurs in the raw line iff it occurs inside some token. -/
def lineHasErrorFrame (parts : List String) : Bool :=
  parts.any fun t => charsContains "ErrorFrame".toList t.toList

/-- The observable console output of `parse_file`, one constructor per
`print` that distinguishes outcomes. -/
inductive LogOutput where
  | successSummary (count : Nat)
  | skippedErrorFrames (count : Nat)
  | fileNotFound
deriving DecidableEq

/-- Model of `CANLogParser.parse_file` (same structure in `CANDataParser.parse_file`).
The file argument is `none` when `open` raises (`FileNotFoundError` /
unreadable stream), else the list of tokenized lines. Returns the final
`self.messages` together with the outcome-distinguishing output lines. -/
def parse_file (file : Option (List (List String))) :
    List CANMessage × List LogOutput :=
  match file with
  | none => ([], [LogOutput.fileNotFound])
  | some lines =>
    let step := fun (acc : List CANMessage × Nat) (lp : List String × Nat) =>
      if lineHasErrorFrame lp.1 then (acc.1, acc.2 + 1)
      else
        match parse_line lp.1 lp.2 with
        | some m => (acc.1 ++ [m], acc.2)
        | none => acc
    let r := (lines.enum.map fun p => (p.2, p.1 + 1)).foldl step ([], 0)
    (r.1,
      [LogOutput.successSummary r.1.length] ++
        (if 0 < r.2 then [LogOutput.skippedErrorFrames r.2] else []))

/-- Per-signature ascending occurrence timestamps, as used in the claim about
candidate statistics: the sorted timestamps of the messages carrying the
signature. -/
def patternTimestamps (messages : List CANMessage) (sig : String) : List ℚ :=
  List.insertionSort (· ≤ ·)
    ((messages.filter fun m => decide (m.data_signature = sig)).map (·.timestamp))

/-- The absolute deltas of the matched fire-time entries for a signature:
`[abs(d) for d in match_deltas]` computed against the signature's sorted
occurrence timestamps. -/
def matchedAbsDeltas (messages : List CANMessage) (fire_times : List ℚ)
    (search_radius : ℚ) (sig : String) : List ℚ :=
  ((matchDeltas (patternTimestamps messages sig)
      (List.insertionSort (· ≤ ·) fire_times) search_radius).map
    Prod.fst).map fun d => |d|

/-! ### Concrete inputs used by witnesses and counterexamples -/

def w1m1 : CANMessage := ⟨0, "100", "N", 1, ["AA"], 10, "R", "", 1⟩
def w1m2 : CANMessage := ⟨0, "100", "N", 1, ["AA"], 100, "R", "", 2⟩
def w1m3 : CANMessage := ⟨0, "200", "N", 1, ["BB"], 10, "R", "", 3⟩
def w1cand : CandidateCommandMatch :=
  ⟨"200", "BB", 1, 10, 3, 1, some 0, some 0, some 0, 1⟩

def x4a : CANMessage := ⟨0, "100", "N", 1, ["AA"], 5, "R", "", 1⟩
def x4b : CANMessage := ⟨0, "100", "N", 1, ["AA"], 3, "R", "", 2⟩
def w4a : CANMessage := ⟨0, "100", "N", 1, ["AA"], 3, "R", "", 1⟩
def w4b : CANMessage := ⟨0, "100", "N", 1, ["AA"], 5, "R", "", 2⟩

def x5b : CANMessage := ⟨0, "100", "N", 1, ["BB"], 0, "R", "", 1⟩
def x5a : CANMessage := ⟨0, "100", "N", 1, ["AA"], 0, "R", "", 2⟩
def w5m : CANMessage := ⟨0, "300", "N", 2, ["01", "02"], 5, "R", "", 1⟩

def x6m : CANMessage := ⟨0, "100", "N", 1, ["AA"], 10, "R", "", 1⟩
def w6m : CANMessage := ⟨0, "400", "N", 1, ["CC"], 7, "R", "", 4⟩
def w6cand : CandidateCommandMatch :=
  ⟨"400", "CC", 1, 7, 4, 1, some 0, some 0, some 0, 1⟩

def w7a : CANMessage := ⟨0, "100", "N", 1, ["AA"], 1, "R", "", 1⟩
def w7b : CANMessage := ⟨0, "100", "N", 1, ["BB"], 4, "R", "", 2⟩

def w9m : CANMessage := ⟨0, "100", "N", 2, ["AA", "01"], 1, "R", "", 1⟩

def w10m : CANMessage := ⟨0, "7DF", "N", 2, ["01", "02"], 10, "R", "", 1⟩
def w10cand : CandidateCommandMatch :=
  ⟨"7DF", "01 02", 2, 10, 1, 1, some 0, some 0, some 0, 1⟩

/-! ### Helper lemmas: nearest-timestamp search -/

theorem sorted_getD_le (ts : List ℚ) (hs : List.Sorted (· ≤ ·) ts) {i j : Nat}
    (hij : i ≤ j) (hj : j < ts.length) : ts.getD i 0 ≤ ts.getD j 0 := by
  rcases Nat.eq_or_lt_of_le hij with h | h
  · subst h; exact le_refl _
  · rw [List.getD_eq_getElem _ _ (lt_trans h hj), List.getD_eq_getElem _ _ hj]
    have := hs.rel_get_of_lt (a := ⟨i, lt_trans h hj⟩) (b := ⟨j, hj⟩) h
    simpa [List.get_eq_getElem] using this

theorem getD_mem (ts : List ℚ) {i : Nat} (h : i < ts.length) :
    ts.getD i 0 ∈ ts := by
  rw [List.getD_eq_getElem _ _ h]; exact List.getElem_mem h

theorem nearestDeltaLoop_spec (ts : List ℚ) (target : ℚ)
    (hs : List.Sorted (· ≤ ·) ts) :
    ∀ fuel lo hi, lo ≤ hi → hi < ts.length → hi - lo < fuel →
      lo ≤ nearestDeltaLoop fuel ts target lo hi ∧
      nearestDeltaLoop fuel ts target lo hi ≤ hi ∧
      (∀ i, lo ≤ i → i < nearestDeltaLoop fuel ts target lo hi →
        ts.getD i 0 < target) ∧
      (target ≤ ts.getD (nearestDeltaLoop fuel ts target lo hi) 0 ∨
        nearestDeltaLoop fuel ts target lo hi = hi) := by
  intro fuel
  induction fuel with
  | zero => intro lo hi _ _ hfuel; omega
  | succ fuel ih =>
    intro lo hi hlohi hhi hfuel
    by_cases hlt : lo < hi
    · have hmidlo : lo ≤ (lo + hi) / 2 := by omega
      have hmidhi : (lo + hi) / 2 < hi := by omega
      by_cases hmid : ts.getD ((lo + hi) / 2) 0 < target
      · have key :
            nearestDeltaLoop (fuel + 1) ts target lo hi =
              nearestDeltaLoop fuel ts target ((lo + hi) / 2 + 1) hi := by
          simp only [nearestDeltaLoop, if_pos hlt, if_pos hmid]
        rw [key]
        have IH := ih ((lo + hi) / 2 + 1) hi (by omega) hhi (by omega)
        refine ⟨by omega, IH.2.1, ?_, IH.2.2.2⟩
        intro i h1 h2
        by_cases hcase : i ≤ (lo + hi) / 2
        · exact lt_of_le_of_lt
            (sorted_getD_le ts hs hcase (lt_trans hmidhi hhi)) hmid
        · exact IH.2.2.1 i (by omega) h2
      · have key :
            nearestDeltaLoop (fuel + 1) ts target lo hi =
              nearestDeltaLoop fuel ts target lo ((lo + hi) / 2) := by
          simp only [nearestDeltaLoop, if_pos hlt, if_neg hmid]
        rw [key]
        have IH := ih lo ((lo + hi) / 2) hmidlo (lt_trans hmidhi hhi) (by omega)
        refine ⟨IH.1, by omega, IH.2.2.1, ?_⟩
        rcases IH.2.2.2 with h | h
        · exact Or.inl h
        · exact Or.inl (by rw [h]; exact le_of_not_lt hmid)
    · have key : nearestDeltaLoop (fuel + 1) ts target lo hi = lo := by
        simp only [nearestDeltaLoop, if_neg hlt]
      rw [key]
      exact ⟨le_refl _, hlohi, fun i h1 h2 => absurd h2 (by omega),
        Or.inr (by omega)⟩

theorem abs_sub_mono_right {t x y : ℚ} (h1 : t ≤ x) (h2 : x ≤ y) :
    |x - t| ≤ |y - t| := by
  rw [abs_of_nonneg (by linarith), abs_of_nonneg (by linarith)]
  linarith

theorem abs_sub_mono_left {t x y : ℚ} (h1 : y ≤ x) (h2 : x < t) :
    |x - t| ≤ |y - t| := by
  rw [abs_of_nonpos (by linarith), abs_of_nonpos (by linarith)]
  linarith

/-- Correctness of `_nearest_delta` on a sorted non-empty list: the returned
delta comes from a list element minimizing the absolute difference. -/
theorem nearest_delta_min (ts : List ℚ) (target : ℚ)
    (hs : List.Sorted (· ≤ ·) ts) (hne : ts ≠ []) :
    ∃ x ∈ ts, nearest_delta ts target = some (x - target) ∧
      ∀ y ∈ ts, |x - target| ≤ |y - target| := by
  have hn : 0 < ts.length := List.length_pos.mpr hne
  have hemp : ts.isEmpty = false := List.isEmpty_eq_false.mpr hne
  have spec := nearestDeltaLoop_spec ts target hs ts.length 0 (ts.length - 1)
    (by omega) (by omega) (by omega)
  obtain ⟨r, hrdef⟩ : ∃ r, nearestDeltaLoop ts.length ts target 0 (ts.length - 1) = r :=
    ⟨_, rfl⟩
  rw [hrdef] at spec
  have hrn : r < ts.length := by omega
  have hres : nearest_delta ts target =
      some (pyMinBy (fun x => |x - target|)
        ((if r < ts.length then [ts.getD r 0] else []) ++
          (if 0 < r then [ts.getD (r - 1) 0] else [])) - target) := by
    simp only [nearest_delta, hemp, Bool.false_eq_true, if_false, hrdef]
  rcases Nat.eq_zero_or_pos r with hr0 | hrpos
  · -- r = 0: single candidate ts[0]
    subst hr0
    have hcands :
        ((if 0 < ts.length then [ts.getD 0 0] else []) ++
          (if 0 < 0 then [ts.getD (0 - 1) 0] else [])) = [ts.getD 0 0] := by
      simp [hn]
    rw [hcands] at hres
    refine ⟨ts.getD 0 0, getD_mem ts hn, hres, ?_⟩
    intro y hy
    rcases List.mem_iff_getElem.mp hy with ⟨j, hj, rfl⟩
    have hyj : ts[j] = ts.getD j 0 := (List.getD_eq_getElem ts 0 hj).symm
    rw [hyj]
    rcases spec.2.2.2 with hge | hlast
    · exact abs_sub_mono_right hge (sorted_getD_le ts hs (Nat.zero_le j) hj)
    · have : j = 0 := by omega
      subst this; exact le_refl _
  · -- r > 0: candidates ts[r] and ts[r-1]
    have hcands :
        ((if r < ts.length then [ts.getD r 0] else []) ++
          (if 0 < r then [ts.getD (r - 1) 0] else [])) =
          [ts.getD r 0, ts.getD (r - 1) 0] := by
      simp [hrn, hrpos]
    rw [hcands] at hres
    have hmin : pyMinBy (fun x => |x - target|) [ts.getD r 0, ts.getD (r - 1) 0] =
        if |ts.getD (r - 1) 0 - target| < |ts.getD r 0 - target| then
          ts.getD (r - 1) 0
        else ts.getD r 0 := rfl
    have hbmem : ts.getD (r - 1) 0 ∈ ts := getD_mem ts (by omega)
    have hamem : ts.getD r 0 ∈ ts := getD_mem ts hrn
    have hblt : ts.getD (r - 1) 0 < target := spec.2.2.1 (r - 1) (by omega) (by omega)
    have hboth : ∀ y ∈ ts,
        |ts.getD r 0 - target| ≤ |y - target| ∨
        |ts.getD (r - 1) 0 - target| ≤ |y - target| := by
      intro y hy
      rcases List.mem_iff_getElem.mp hy with ⟨j, hj, rfl⟩
      have hyj : ts[j] = ts.getD j 0 := (List.getD_eq_getElem ts 0 hj).symm
      rw [hyj]
      by_cases hjr : j < r
      · exact Or.inr (abs_sub_mono_left
          (sorted_getD_le ts hs (by omega) (by omega)) hblt)
      · rcases spec.2.2.2 with hge | hlast
        · exact Or.inl (abs_sub_mono_right hge
            (sorted_getD_le ts hs (by omega) hj))
        · have : j = r := by omega
          subst this; exact Or.inl (le_refl _)
    rw [hmin] at hres
    by_cases hcase : |ts.getD (r - 1) 0 - target| < |ts.getD r 0 - target|
    · rw [if_pos hcase] at hres
      refine ⟨ts.getD (r - 1) 0, hbmem, hres, ?_⟩
      intro y hy
      rcases hboth y hy with h | h
      · exact le_trans (le_of_lt hcase) h
      · exact h
    · rw [if_neg hcase] at hres
      refine ⟨ts.getD r 0, hamem, hres, ?_⟩
      intro y hy
      rcases hboth y hy with h | h
      · exact h
      · exact le_trans (le_of_not_lt hcase) h

/-! ### Helper lemmas: the pattern index -/

theorem anyKey_iff (acc : List (String × List CANMessage)) (s : String) :
    (acc.any fun e => decide (e.1 = s)) = true ↔ ∃ ms, (s, ms) ∈ acc := by
  rw [List.any_eq_true]
  constructor
  · rintro ⟨⟨p, ms⟩, hmem, hp⟩
    have hps : p = s := of_decide_eq_true hp
    subst hps; exact ⟨ms, hmem⟩
  · rintro ⟨ms, hmem⟩
    exact ⟨(s, ms), hmem, by simp⟩

theorem key_mem_addToPattern (acc : List (String × List CANMessage))
    (m : CANMessage) (p : String) (h : ∃ ms, (p, ms) ∈ acc) :
    ∃ ms, (p, ms) ∈ addToPattern acc m := by
  obtain ⟨ms, hmem⟩ := h
  unfold addToPattern
  by_cases hin : (acc.any fun e => decide (e.1 = m.data_signature)) = true
  · rw [if_pos hin]
    by_cases hp : p = m.data_signature
    · exact ⟨ms ++ [m], List.mem_map.mpr ⟨(p, ms), hmem, by simp [hp]⟩⟩
    · exact ⟨ms, List.mem_map.mpr ⟨(p, ms), hmem, by simp [hp]⟩⟩
  · rw [if_neg hin]
    exact ⟨ms, List.mem_append_left _ hmem⟩

theorem sig_mem_addToPattern (acc : List (String × List CANMessage))
    (m : CANMessage) :
    ∃ ms, (m.data_signature, ms) ∈ addToPattern acc m := by
  unfold addToPattern
  by_cases hin : (acc.any fun e => decide (e.1 = m.data_signature)) = true
  · rw [if_pos hin]
    obtain ⟨ms, hmem⟩ := (anyKey_iff acc m.data_signature).mp hin
    exact ⟨ms ++ [m], List.mem_map.mpr ⟨(m.data_signature, ms), hmem, by simp⟩⟩
  · rw [if_neg hin]
    exact ⟨[m], List.mem_append_right _ (by simp)⟩

theorem key_mem_foldl (msgs : List CANMessage) :
    ∀ acc p, (∃ ms, (p, ms) ∈ acc) →
      ∃ ms, (p, ms) ∈ msgs.foldl addToPattern acc := by
  induction msgs with
  | nil => intro acc p h; exact h
  | cons m rest ih =>
    intro acc p h
    exact ih (addToPattern acc m) p (key_mem_addToPattern acc m p h)

theorem grp_aux (sig : String) :
    ∀ (msgs : List CANMessage) (acc : List (String × List CANMessage))
      (ms : List CANMessage), (sig, ms) ∈ msgs.foldl addToPattern acc →
      (∃ ms₀, (sig, ms₀) ∈ acc ∧
        ms = ms₀ ++ msgs.filter fun m => decide (m.data_signature = sig)) ∨
      ((¬ ∃ ms₀, (sig, ms₀) ∈ acc) ∧
        ms = msgs.filter fun m => decide (m.data_signature = sig)) := by
  intro msgs
  induction msgs with
  | nil =>
    intro acc ms h
    exact Or.inl ⟨ms, h, by simp⟩
  | cons m rest ih =>
    intro acc ms h
    rw [List.foldl_cons] at h
    have h' := ih (addToPattern acc m) ms h
    rcases h' with ⟨ms₁, hmem1, hms⟩ | ⟨hno, hms⟩
    · -- the key already had an entry after processing m
      unfold addToPattern at hmem1
      by_cases hin : (acc.any fun e => decide (e.1 = m.data_signature)) = true
      · rw [if_pos hin] at hmem1
        obtain ⟨⟨e1, e2⟩, hemem, hfe⟩ := List.mem_map.mp hmem1
        by_cases he : e1 = m.data_signature
        · rw [if_pos he] at hfe
          injection hfe with hp hm
          have hsig : m.data_signature = sig := he.symm.trans hp
          refine Or.inl ⟨e2, hp ▸ hemem, ?_⟩
          rw [List.filter_cons, if_pos (decide_eq_true hsig), hms, ← hm,
            List.append_assoc]
          simp
        · rw [if_neg he] at hfe
          injection hfe with hp hm
          have hsig : ¬ m.data_signature = sig := fun hc =>
            he (hp ▸ hc.symm ▸ rfl)
          refine Or.inl ⟨ms₁, hp ▸ hm ▸ hemem, ?_⟩
          rw [List.filter_cons, if_neg (by simp [hsig])]
          exact hms
      · rw [if_neg hin] at hmem1
        rcases List.mem_append.mp hmem1 with hacc | hnew
        · by_cases hp : sig = m.data_signature
          · exact absurd ((anyKey_iff acc m.data_signature).mpr
              ⟨ms₁, hp ▸ hacc⟩) hin
          · refine Or.inl ⟨ms₁, hacc, ?_⟩
            have hsig : ¬ m.data_signature = sig := fun hc => hp hc.symm
            rw [List.filter_cons, if_neg (by simp [hsig])]
            exact hms
        · simp only [List.mem_singleton] at hnew
          injection hnew with hp hm
          refine Or.inr ⟨?_, ?_⟩
          · intro ⟨ms₀, hmem0⟩
            exact hin ((anyKey_iff acc m.data_signature).mpr ⟨ms₀, hp ▸ hmem0⟩)
          · rw [List.filter_cons, if_pos (decide_eq_true hp.symm), hms, hm]
            simp
    · -- no entry for the key even after processing m
      have hp : ¬ sig = m.data_signature := by
        intro hc
        exact hno (hc ▸ sig_mem_addToPattern acc m)
      have hnoacc : ¬ ∃ ms₀, (sig, ms₀) ∈ acc := by
        intro hc
        exact hno (key_mem_addToPattern acc m sig hc)
      refine Or.inr ⟨hnoacc, ?_⟩
      have hsig : ¬ m.data_signature = sig := fun hc => hp hc.symm
      rw [List.filter_cons, if_neg (by simp [hsig])]
      exact hms

/-- Every entry of the pattern index holds exactly the messages carrying its
signature, in input order. -/
theorem messages_by_pattern_entry (messages : List CANMessage) (sig : String)
    (ms : List CANMessage) (h : (sig, ms) ∈ messages_by_pattern messages) :
    ms = messages.filter fun m => decide (m.data_signature = sig) := by
  rcases grp_aux sig messages [] ms h with ⟨ms₀, hmem, _⟩ | ⟨_, hms⟩
  · simp at hmem
  · exact hms

/-- Key existence through the fold, generalized over the accumulator. -/
theorem sig_mem_foldl (m : CANMessage) :
    ∀ (msgs : List CANMessage) (acc : List (String × List CANMessage)),
      m ∈ msgs →
      ∃ ms, (m.data_signature, ms) ∈ msgs.foldl addToPattern acc := by
  intro msgs
  induction msgs with
  | nil => intro acc h; simp at h
  | cons m' rest ih =>
    intro acc h
    rw [List.foldl_cons]
    rcases List.mem_cons.mp h with hm | hm
    · subst hm
      exact key_mem_foldl rest (addToPattern acc m) _ (sig_mem_addToPattern acc m)
    · exact ih (addToPattern acc m') hm

/-- Every message's signature has an entry in the pattern index. -/
theorem mem_messages_by_pattern (messages : List CANMessage) (m : CANMessage)
    (h : m ∈ messages) :
    ∃ ms, (m.data_signature, ms) ∈ messages_by_pattern messages :=
  sig_mem_foldl m messages [] h

theorem addToPattern_keys (acc : List (String × List CANMessage))
    (m : CANMessage) :
    (addToPattern acc m).map Prod.fst =
      dedupStep (acc.map Prod.fst) m.data_signature := by
  unfold addToPattern dedupStep
  have hany : ((acc.map Prod.fst).any fun y => decide (y = m.data_signature)) =
      (acc.any fun e => decide (e.1 = m.data_signature)) := by
    induction acc with
    | nil => rfl
    | cons e rest ih => simp [ih]
  rw [← hany]
  by_cases hin :
      ((acc.map Prod.fst).any fun y => decide (y = m.data_signature)) = true
  · rw [if_pos hin, if_pos hin, List.map_map]
    apply List.map_congr_left
    intro e _
    by_cases he : e.1 = m.data_signature <;> simp [he]
  · rw [if_neg hin, if_neg hin, List.map_append]; rfl

theorem foldl_keys (msgs : List CANMessage) :
    ∀ acc, (msgs.foldl addToPattern acc).map Prod.fst =
      (msgs.map (·.data_signature)).foldl dedupStep (acc.map Prod.fst) := by
  induction msgs with
  | nil => intro acc; rfl
  | cons m rest ih =>
    intro acc
    rw [List.foldl_cons, List.map_cons, List.foldl_cons, ih (addToPattern acc m),
      addToPattern_keys]

/-- The keys of the pattern index are the distinct signatures, in order of
first occurrence. -/
theorem messages_by_pattern_keys (messages : List CANMessage) :
    (messages_by_pattern messages).map Prod.fst =
      dedupFirst (messages.map (·.data_signature)) :=
  foldl_keys messages []

theorem messages_by_pattern_length (messages : List CANMessage) :
    (messages_by_pattern messages).length =
      (dedupFirst (messages.map (·.data_signature))).length := by
  rw [← messages_by_pattern_keys, List.length_map]

/-! ### Helper lemmas: the correlation engine -/

theorem fireWindows_of_any (messages : List CANMessage) (tts : List ℚ)
    (r t : ℚ)
    (h : ((fireWindows messages tts r).any fun w => decide (w = t)) = true) :
    ∃ ft ∈ tts, |t - ft| ≤ r := by
  obtain ⟨w, hwmem, hwt⟩ := List.any_eq_true.mp h
  have hwt' : w = t := of_decide_eq_true hwt
  subst hwt'
  obtain ⟨sub, hsubmem, hwsub⟩ := List.mem_flatten.mp hwmem
  obtain ⟨ft, hft, hsub⟩ := List.mem_map.mp hsubmem
  subst hsub
  obtain ⟨m', hm'mem, hm't⟩ := List.mem_map.mp hwsub
  have hm'filter := List.mem_filter.mp hm'mem
  have := of_decide_eq_true hm'filter.2
  exact ⟨ft, hft, hm't ▸ this⟩

theorem fireWindows_contains (messages : List CANMessage) (tts : List ℚ)
    (r : ℚ) (m : CANMessage) (hm : m ∈ messages) (ft : ℚ) (hft : ft ∈ tts)
    (hr : |m.timestamp - ft| ≤ r) :
    ((fireWindows messages tts r).any fun w => decide (w = m.timestamp)) = true := by
  apply List.any_eq_true.mpr
  refine ⟨m.timestamp, ?_, by simp⟩
  apply List.mem_flatten.mpr
  refine ⟨(messages.filter fun m' => decide (|m'.timestamp - ft| ≤ r)).map
    (·.timestamp), List.mem_map.mpr ⟨ft, hft, rfl⟩, ?_⟩
  exact List.mem_map.mpr ⟨m, List.mem_filter.mpr ⟨hm, decide_eq_true hr⟩, rfl⟩

/-- Unfolding a successful `scorePattern`: the coverage test passed and every
field of the candidate is the corresponding computed statistic. -/
theorem scorePattern_eq_some (target_times : List ℚ) (r mc : ℚ)
    (pattern can_id : String) (msgs_sorted : List CANMessage)
    (c : CandidateCommandMatch)
    (h : scorePattern target_times r mc pattern can_id msgs_sorted = some c) :
    ¬ (if target_times.isEmpty then (0:ℚ)
        else (((matchDeltas (msgs_sorted.map (·.timestamp)) target_times r).length : ℚ) /
          (target_times.length : ℚ))) < mc ∧
    c.data_signature = pattern ∧
    c.coverage = (if target_times.isEmpty then (0:ℚ)
        else (((matchDeltas (msgs_sorted.map (·.timestamp)) target_times r).length : ℚ) /
          (target_times.length : ℚ))) ∧
    c.median_abs_delta =
      (if (((matchDeltas (msgs_sorted.map (·.timestamp)) target_times r).map
          Prod.fst).map fun d => |d|).isEmpty then none
        else some (pyMedian (((matchDeltas (msgs_sorted.map (·.timestamp))
          target_times r).map Prod.fst).map fun d => |d|))) ∧
    c.avg_abs_delta =
      (if (((matchDeltas (msgs_sorted.map (·.timestamp)) target_times r).map
          Prod.fst).map fun d => |d|).isEmpty then none
        else some (pyMean (((matchDeltas (msgs_sorted.map (·.timestamp))
          target_times r).map Prod.fst).map fun d => |d|))) ∧
    c.max_abs_delta =
      (if (((matchDeltas (msgs_sorted.map (·.timestamp)) target_times r).map
          Prod.fst).map fun d => |d|).isEmpty then none
        else some (pyMaxList (((matchDeltas (msgs_sorted.map (·.timestamp))
          target_times r).map Prod.fst).map fun d => |d|))) ∧
    c.confidence = 7/10 * c.coverage + 3/10 * tightnessOf c.median_abs_delta := by
  simp only [scorePattern] at h
  by_cases hcov : (if target_times.isEmpty then (0:ℚ)
      else (((matchDeltas (msgs_sorted.map (·.timestamp)) target_times r).length : ℚ) /
        (target_times.length : ℚ))) < mc
  · rw [if_pos hcov] at h; exact absurd h (by simp)
  · rw [if_neg hcov] at h
    have hc := Option.some.inj h
    subst hc
    exact ⟨hcov, rfl, rfl, rfl, rfl, rfl, rfl⟩

/-- Unfolding a successful `processPattern`: the all-in-window gate passed
and the candidate came from `scorePattern`. -/
theorem processPattern_eq_some (tt ftw : List ℚ) (r mc : ℚ)
    (pm : String × List CANMessage) (c : CandidateCommandMatch)
    (h : processPattern tt ftw r mc pm = some c) :
    ((List.insertionSort msgLe pm.2).all fun m =>
      ftw.any fun w => decide (w = m.timestamp)) = true ∧
    scorePattern tt r mc pm.1 (pickCanId (List.insertionSort msgLe pm.2))
      (List.insertionSort msgLe pm.2) = some c := by
  simp only [processPattern] at h
  by_cases hg : ((List.insertionSort msgLe pm.2).all fun m =>
      ftw.any fun w => decide (w = m.timestamp)) = true
  · rw [if_pos hg] at h; exact ⟨hg, h⟩
  · rw [if_neg hg] at h; exact absurd h (by simp)

/-- Every returned candidate comes from a successful `processPattern` on some
pattern-index entry (and the fire-time list is then non-empty). -/
theorem find_command_candidates_mem (messages : List CANMessage)
    (fire_times : List ℚ) (r mc : ℚ) (mx : Nat) (c : CandidateCommandMatch)
    (h : c ∈ find_command_candidates messages fire_times r mc mx) :
    fire_times ≠ [] ∧ messages ≠ [] ∧
    ∃ pm ∈ messages_by_pattern messages,
      processPattern (List.insertionSort (· ≤ ·) fire_times)
        (fireWindows messages (List.insertionSort (· ≤ ·) fire_times) r)
        r mc pm = some c := by
  unfold find_command_candidates at h
  by_cases hemp : (fire_times.isEmpty || messages.isEmpty) = true
  · rw [if_pos hemp] at h; simp at h
  · rw [if_neg hemp] at h
    simp only [Bool.or_eq_true, List.isEmpty_iff, not_or] at hemp
    have hc1 : c ∈ List.insertionSort candGe
        ((messages_by_pattern messages).filterMap
          (processPattern (List.insertionSort (· ≤ ·) fire_times)
            (fireWindows messages (List.insertionSort (· ≤ ·) fire_times) r)
            r mc)) := List.take_subset _ _ h
    have hc2 := (List.perm_insertionSort candGe _).mem_iff.mp hc1
    obtain ⟨pm, hpm, hres⟩ := List.mem_filterMap.mp hc2
    exact ⟨hemp.1, hemp.2, pm, hpm, hres⟩

/-! ### Claim C1 -/

/-- Claim C1: hard rejection gate. For every record list, fire-time list and
search radius, a signature with at least one occurrence whose timestamp is
more than `search_radius` away from every fire time is absent from the
candidate list returned by `find_command_candidates`, regardless of how well
its other occurrences align. -/
theorem C1_hard_rejection (messages : List CANMessage) (fire_times : List ℚ)
    (search_radius min_coverage : ℚ) (max_candidates : Nat) (m : CANMessage)
    (hm : m ∈ messages)
    (hout : ∀ ft ∈ fire_times, search_radius < |m.timestamp - ft|) :
    ∀ c ∈ find_command_candidates messages fire_times search_radius
        min_coverage max_candidates,
      c.data_signature ≠ m.data_signature := by
  intro c hc hceq
  obtain ⟨hfne, hmne, pm, hpm, hres⟩ :=
    find_command_candidates_mem messages fire_times search_radius min_coverage
      max_candidates c hc
  obtain ⟨hgate, hscore⟩ := processPattern_eq_some _ _ _ _ _ _ hres
  have hsig : c.data_signature = pm.1 :=
    (scorePattern_eq_some _ _ _ _ _ _ _ hscore).2.1
  obtain ⟨p, ms⟩ := pm
  have hms := messages_by_pattern_entry messages p ms hpm
  have hmsig : m.data_signature = p := hceq ▸ hsig
  have hmms : m ∈ ms := by
    rw [hms]; exact List.mem_filter.mpr ⟨hm, decide_eq_true hmsig⟩
  have hmsorted : m ∈ List.insertionSort msgLe ms :=
    (List.perm_insertionSort msgLe ms).mem_iff.mpr hmms
  have hwin := List.all_eq_true.mp hgate m hmsorted
  obtain ⟨ft, hft, habs⟩ :=
    fireWindows_of_any messages _ search_radius m.timestamp hwin
  have hft' : ft ∈ fire_times :=
    (List.perm_insertionSort _ fire_times).subset hft
  exact absurd habs (not_le.mpr (hout ft hft'))

/-- Witness for C1 at a concrete log: signature `"AA"` occurs at 10 and at
100; with fire time 10 and radius 1/2 the far occurrence expels `"AA"`, so the
surviving candidate (signature `"BB"`) differs from it. -/
theorem C1_hard_rejection_witness : w1cand.data_signature ≠ w1m2.data_signature :=
  C1_hard_rejection [w1m1, w1m2, w1m3] [10] (1/2) (1/2) 15 w1m2
    (by simp)
    (by intro ft hft
        rw [List.mem_singleton] at hft
        subst hft
        with_unfolding_all decide)
    w1cand (by with_unfolding_all decide)

/-! ### Claim C2 -/

/-- Claim C2: nearest-timestamp search. For every non-empty ascending
timestamp list and target time, `_nearest_delta` returns the signed delta
`matched_timestamp - target` of an element whose absolute difference to the
target is minimal over the whole list; for the empty list it returns the
no-data value `none`. -/
theorem C2_nearest_delta_spec (l : List ℚ) (target : ℚ)
    (hsorted : List.Sorted (· ≤ ·) l) :
    (l = [] → nearest_delta l target = none) ∧
    (l ≠ [] → ∃ x ∈ l, nearest_delta l target = some (x - target) ∧
      ∀ y ∈ l, |x - target| ≤ |y - target|) :=
  ⟨fun he => by subst he; rfl,
   fun hne => nearest_delta_min l target hsorted hne⟩

/-- Witness for C2 on the concrete sorted list `[1, 3]` with target `2`. -/
theorem C2_nearest_delta_spec_witness :
    ∃ x ∈ [(1:ℚ), 3], nearest_delta [1, 3] 2 = some (x - 2) ∧
      ∀ y ∈ [(1:ℚ), 3], |x - 2| ≤ |y - 2| :=
  (C2_nearest_delta_spec [1, 3] 2 (by
    constructor
    · intro b hb
      rw [List.mem_singleton] at hb
      subst hb
      with_unfolding_all decide
    · simp)).2 (by simp)

/-! ### Claim C3 -/

/-- Helper: any line whose token count is exactly `4 + payload_length + 1`
(header, payload, timestamp, but no direction token) is rejected by
`_parse_line`, whatever its contents: the `4 + data_length + 2` minimum-token
check fires before the `direction`-defaulting branch could ever apply. -/
theorem parse_line_rejects_missing_direction (parts : List String) (ln : Nat)
    (d : Int) (hd : pyInt (parts.getD 3 "") = some d)
    (hlen : (parts.length : Int) = 4 + d + 1) :
    parse_line parts ln = none := by
  unfold parse_line
  by_cases h6 : parts.length < 6
  · rw [if_pos h6]
  · rw [if_neg h6]
    cases hch : pyInt (parts.getD 0 "") with
    | none => rfl
    | some channel =>
      simp only [hd]
      rw [if_pos (by omega)]

/-- Claim C3 (code bug): the spec says a line with exactly the header fields,
payload, and timestamp but no direction token parses to a record with empty
direction; the code instead rejects such a line, because the
`expected_parts = 4 + data_length + 2` check demands a direction token and
makes the `else ''` defaulting branch dead. Concretely, the 7-token line
`0 100 N 2 AA BB 10.0` is rejected by both parsers while the same line with a
direction token appended parses. -/
theorem C3_missing_direction_rejected :
    parse_line ["0", "100", "N", "2", "AA", "BB", "10.0"] 1 = none ∧
    CANDataParser_parse_line ["0", "100", "N", "2", "AA", "BB", "10.0"] 1 = none ∧
    (parse_line ["0", "100", "N", "2", "AA", "BB", "10.0", "R"] 1).isSome = true ∧
    (parse_line ["0", "100", "N", "2", "AA", "BB", "10.0", "R"] 1).map
      (·.direction) = some "R" := by
  refine ⟨?_, ?_, ?_, ?_⟩ <;> with_unfolding_all decide

/-! ### Claim C4 -/

theorem lookup_none_iff_any_false (l : List (String × ℚ)) (s : String) :
    lookupPattern l s = none ↔ (l.any fun e => decide (e.1 = s)) = false := by
  rw [Bool.eq_false_iff]
  constructor
  · intro h hany
    obtain ⟨e, hmem, he⟩ := List.any_eq_true.mp hany
    unfold lookupPattern at h
    rw [Option.map_eq_none', List.find?_eq_none] at h
    exact h e hmem he
  · intro h
    unfold lookupPattern
    rw [Option.map_eq_none', List.find?_eq_none]
    intro e hmem he
    exact h (List.any_eq_true.mpr ⟨e, hmem, he⟩)

theorem lookup_firstOccStep_mono (acc : List (String × ℚ)) (m : CANMessage)
    (sig : String) (q : ℚ) (h : lookupPattern acc sig = some q) :
    lookupPattern (firstOccStep acc m) sig = some q := by
  unfold firstOccStep
  split
  · exact h
  · unfold lookupPattern at h ⊢
    obtain ⟨e, he, heq⟩ := Option.map_eq_some'.mp h
    rw [List.find?_append, he]
    simpa using heq

theorem lookup_foldl_firstOcc_mono (msgs : List CANMessage) :
    ∀ (acc : List (String × ℚ)) (sig : String) (q : ℚ),
      lookupPattern acc sig = some q →
      lookupPattern (msgs.foldl firstOccStep acc) sig = some q := by
  induction msgs with
  | nil => intro acc sig q h; exact h
  | cons m rest ih =>
    intro acc sig q h
    rw [List.foldl_cons]
    exact ih (firstOccStep acc m) sig q (lookup_firstOccStep_mono acc m sig q h)

theorem lookup_foldl_firstOcc (msgs : List CANMessage) :
    ∀ (acc : List (String × ℚ)) (sig : String),
      lookupPattern acc sig = none →
      lookupPattern (msgs.foldl firstOccStep acc) sig =
        (msgs.find? fun m => decide (m.data_signature = sig)).map (·.timestamp) := by
  induction msgs with
  | nil => intro acc sig h; simpa using h
  | cons m rest ih =>
    intro acc sig h
    rw [List.foldl_cons]
    by_cases hsig : m.data_signature = sig
    · have hany : (acc.any fun e => decide (e.1 = m.data_signature)) = false := by
        rw [← hsig] at h
        exact (lookup_none_iff_any_false acc m.data_signature).mp h
      have hstep : firstOccStep acc m = acc ++ [(m.data_signature, m.timestamp)] := by
        unfold firstOccStep
        rw [hany]
        simp
      have hlook : lookupPattern (firstOccStep acc m) sig = some m.timestamp := by
        rw [hstep]
        unfold lookupPattern at h ⊢
        rw [List.find?_append, Option.map_eq_none'.mp h]
        simp [hsig]
      have hfind : List.find? (fun m' => decide (m'.data_signature = sig))
          (m :: rest) = some m :=
        List.find?_cons_of_pos _ (by simp [hsig])
      rw [lookup_foldl_firstOcc_mono rest _ sig m.timestamp hlook, hfind]
      rfl
    · have hstepnone : lookupPattern (firstOccStep acc m) sig = none := by
        unfold firstOccStep
        split
        · exact h
        · unfold lookupPattern at h ⊢
          rw [List.find?_append, Option.map_eq_none'.mp h]
          simp [hsig]
      rw [ih (firstOccStep acc m) sig hstepnone,
        List.find?_cons_of_neg _ (by simp [hsig])]

/-- The first-occurrence dict lookup is the timestamp of the first record in
input order carrying the signature. -/
theorem firstOcc_lookup (messages : List CANMessage) (sig : String) :
    lookupPattern (get_first_occurrence_times messages) sig =
      (messages.find? fun m => decide (m.data_signature = sig)).map (·.timestamp) :=
  lookup_foldl_firstOcc messages [] sig rfl

theorem find?_min_of_sorted (messages : List CANMessage)
    (hsort : messages.Pairwise msgLe) (p : CANMessage → Bool)
    (m0 : CANMessage) (h : messages.find? p = some m0) :
    ∀ m ∈ messages, p m = true → m0.timestamp ≤ m.timestamp := by
  induction messages with
  | nil => simp at h
  | cons a rest ih =>
    by_cases hpa : p a = true
    · rw [List.find?_cons_of_pos _ hpa] at h
      have ha : m0 = a := (Option.some.inj h).symm
      subst ha
      intro m hm _
      rcases List.mem_cons.mp hm with hma | hmr
      · subst hma; exact le_refl _
      · exact (List.pairwise_cons.mp hsort).1 m hmr
    · rw [List.find?_cons_of_neg _ hpa] at h
      intro m hm hpm
      rcases List.mem_cons.mp hm with hma | hmr
      · subst hma; exact absurd hpm hpa
      · exact ih (List.pairwise_cons.mp hsort).2 h m hmr hpm

/-- Claim C4 counterexample: on the record list `[timestamp 5, timestamp 3]`
(both with signature `"AA"`, timestamps not sorted), the computed
first-occurrence time is 5, but the minimum timestamp among records sharing
the signature is 3 — the claim's universal statement over unsorted lists
fails. -/
theorem C4_counterexample :
    lookupPattern (get_first_occurrence_times [x4a, x4b]) "AA" = some 5 ∧
    x4b.data_signature = "AA" ∧ x4b.timestamp = 3 ∧ ¬ ((5:ℚ) ≤ 3) := by
  refine ⟨?_, ?_, ?_, ?_⟩ <;> with_unfolding_all decide

/-- Claim C4 (amended): the first-occurrence time computed per signature is
the timestamp of the first record in input order carrying that signature;
for record lists whose timestamps are non-decreasing (the spec's ordered
record list) it is therefore the minimum timestamp among records sharing the
signature, with ties broken by input order. -/
theorem C4_first_occurrence (messages : List CANMessage)
    (hsort : messages.Pairwise msgLe) (sig : String) (q : ℚ)
    (hq : lookupPattern (get_first_occurrence_times messages) sig = some q) :
    (∃ m ∈ messages, m.data_signature = sig ∧ m.timestamp = q) ∧
    ∀ m ∈ messages, m.data_signature = sig → q ≤ m.timestamp := by
  rw [firstOcc_lookup] at hq
  obtain ⟨m0, hm0, hm0q⟩ := Option.map_eq_some'.mp hq
  have hm0mem := List.mem_of_find?_eq_some hm0
  have hm0p : m0.data_signature = sig := by
    have := List.find?_some hm0
    simpa using this
  refine ⟨⟨m0, hm0mem, hm0p, hm0q⟩, ?_⟩
  intro m hm hmp
  rw [← hm0q]
  exact find?_min_of_sorted messages hsort _ m0 hm0 m hm (decide_eq_true hmp)

/-- Witness for C4 on the sorted concrete list `[timestamp 3, timestamp 5]`. -/
theorem C4_first_occurrence_witness :
    (∃ m ∈ [w4a, w4b], m.data_signature = "AA" ∧ m.timestamp = 3) ∧
    ∀ m ∈ [w4a, w4b], m.data_signature = "AA" → (3:ℚ) ≤ m.timestamp :=
  C4_first_occurrence [w4a, w4b] (by with_unfolding_all decide) "AA" 3
    (by with_unfolding_all decide)

/-! ### Claim C7 -/

theorem firstOcc_foldl_keys_nodup (msgs : List CANMessage) :
    ∀ acc : List (String × ℚ), (acc.map Prod.fst).Nodup →
      ((msgs.foldl firstOccStep acc).map Prod.fst).Nodup := by
  induction msgs with
  | nil => intro acc h; exact h
  | cons m rest ih =>
    intro acc h
    rw [List.foldl_cons]
    apply ih
    unfold firstOccStep
    by_cases hany : (acc.any fun e => decide (e.1 = m.data_signature)) = true
    · rw [if_pos hany]; exact h
    · rw [if_neg hany, List.map_append]
      have hnotin : m.data_signature ∉ acc.map Prod.fst := by
        intro hmem
        obtain ⟨e, hemem, hef⟩ := List.mem_map.mp hmem
        exact hany (List.any_eq_true.mpr ⟨e, hemem, decide_eq_true hef⟩)
      simp [List.nodup_append, h, hnotin]

theorem firstOcc_keys_nodup (messages : List CANMessage) :
    ((get_first_occurrence_times messages).map Prod.fst).Nodup :=
  firstOcc_foldl_keys_nodup messages [] (by simp)

theorem mem_lookup_iff_of_nodup (l : List (String × ℚ))
    (hnd : (l.map Prod.fst).Nodup) (s : String) (q : ℚ) :
    (s, q) ∈ l ↔ lookupPattern l s = some q := by
  induction l with
  | nil => simp [lookupPattern]
  | cons e rest ih =>
    obtain ⟨e1, e2⟩ := e
    rw [List.map_cons, List.nodup_cons] at hnd
    by_cases he1 : e1 = s
    · subst he1
      have hlook : lookupPattern ((e1, e2) :: rest) e1 = some e2 := by
        unfold lookupPattern
        rw [List.find?_cons_of_pos _ (by simp)]
        rfl
      rw [hlook]
      constructor
      · rintro hmem
        rcases List.mem_cons.mp hmem with hh | ht
        · have := Prod.mk.injEq .. ▸ hh
          simp at hh
          exact congrArg some hh.symm
        · exact absurd (List.mem_map.mpr ⟨(e1, q), ht, rfl⟩) hnd.1
      · intro hq
        have : e2 = q := Option.some.inj hq
        subst this
        exact List.mem_cons_self _ _
    · have hlook : lookupPattern ((e1, e2) :: rest) s = lookupPattern rest s := by
        unfold lookupPattern
        rw [List.find?_cons_of_neg _ (by simp [he1])]
      rw [hlook, ← ih hnd.2]
      constructor
      · intro hmem
        rcases List.mem_cons.mp hmem with hh | ht
        · exact absurd (congrArg Prod.fst hh).symm he1
        · exact ht
      · intro ht
        exact List.mem_cons_of_mem _ ht

/-- Claim C7: first-appearance filter. A record is returned by
`filter_by_unique_data_after` iff it is in the input and its signature's
first-occurrence time (as computed by `_get_first_occurrence_times`) is at or
after the threshold; the condition depends only on the signature, so all
occurrences of a qualifying signature are included, even those with
timestamps earlier than the threshold. -/
theorem C7_filter_by_unique_data_after (messages : List CANMessage) (thr : ℚ) :
    ∀ m, m ∈ filter_by_unique_data_after messages thr ↔
      (m ∈ messages ∧
        ∃ q, lookupPattern (get_first_occurrence_times messages)
          m.data_signature = some q ∧ thr ≤ q) := by
  intro m
  unfold filter_by_unique_data_after
  by_cases hemp : messages.isEmpty = true
  · rw [if_pos hemp]
    have hnil : messages = [] := List.isEmpty_iff.mp hemp
    subst hnil
    simp
  · rw [if_neg hemp, List.mem_filter]
    have hnd := firstOcc_keys_nodup messages
    constructor
    · rintro ⟨hmem, hpred⟩
      obtain ⟨p, hp, hpm⟩ := List.any_eq_true.mp hpred
      have hpm' : p = m.data_signature := of_decide_eq_true hpm
      subst hpm'
      obtain ⟨e, he, hef⟩ := List.mem_map.mp hp
      obtain ⟨e1, e2⟩ := e
      have hefilter := List.mem_filter.mp he
      have he1 : e1 = m.data_signature := hef
      subst he1
      exact ⟨hmem, e2,
        (mem_lookup_iff_of_nodup _ hnd _ e2).mp hefilter.1,
        of_decide_eq_true hefilter.2⟩
    · rintro ⟨hmem, q, hlook, hthr⟩
      refine ⟨hmem, List.any_eq_true.mpr ⟨m.data_signature, ?_, by simp⟩⟩
      exact List.mem_map.mpr ⟨(m.data_signature, q),
        List.mem_filter.mpr ⟨(mem_lookup_iff_of_nodup _ hnd _ q).mpr hlook,
          decide_eq_true hthr⟩, rfl⟩

/-- Witness for C7: the second signature `"BB"` first appears at time 4 ≥ 3,
so its record is kept; instantiates the iff at that record. -/
theorem C7_filter_by_unique_data_after_witness :
    w7b ∈ filter_by_unique_data_after [w7a, w7b] 3 ↔
      (w7b ∈ [w7a, w7b] ∧
        ∃ q, lookupPattern (get_first_occurrence_times [w7a, w7b])
          w7b.data_signature = some q ∧ (3:ℚ) ≤ q) :=
  C7_filter_by_unique_data_after [w7a, w7b] 3 w7b

/-! ### Claim C9 -/

theorem similarStep_pos (ref_bytes : List String) (maxd : Nat)
    (acc : List (String × Nat)) (m : CANMessage)
    (h : ∀ e ∈ acc, 0 < e.2) :
    ∀ e ∈ similarStep ref_bytes maxd acc m, 0 < e.2 := by
  intro e he
  unfold similarStep at he
  by_cases hlen : m.data_bytes.length ≠ ref_bytes.length
  · rw [if_pos hlen] at he; exact h e he
  · rw [if_neg hlen] at he
    simp only at he
    by_cases hdiff : 0 < countDiffs ref_bytes m.data_bytes ∧
        countDiffs ref_bytes m.data_bytes ≤ maxd
    · rw [if_pos hdiff] at he
      by_cases hseen : ((acc.map Prod.fst).any
          fun p => decide (p = m.data_signature)) = true
      · rw [if_pos hseen] at he; exact h e he
      · rw [if_neg hseen] at he
        rcases List.mem_append.mp he with hacc | hnew
        · exact h e hacc
        · rw [List.mem_singleton] at hnew
          subst hnew
          exact hdiff.1
    · rw [if_neg hdiff] at he; exact h e he

theorem similarStep_zero (ref_bytes : List String)
    (acc : List (String × Nat)) (m : CANMessage) :
    similarStep ref_bytes 0 acc m = acc := by
  unfold similarStep
  by_cases hlen : m.data_bytes.length ≠ ref_bytes.length
  · rw [if_pos hlen]
  · rw [if_neg hlen]
    simp only
    rw [if_neg (by omega)]

theorem foldl_similarStep_zero (ref_bytes : List String)
    (msgs : List CANMessage) :
    ∀ acc, msgs.foldl (similarStep ref_bytes 0) acc = acc := by
  induction msgs with
  | nil => intro acc; rfl
  | cons m rest ih =>
    intro acc
    rw [List.foldl_cons, similarStep_zero, ih]

/-- Claim C9: the similarity matcher excludes identity. No entry of
`find_similar_patterns` has Hamming distance 0, and with
`max_differences = 0` the result is always the empty list. -/
theorem C9_find_similar_patterns (messages : List CANMessage)
    (reference_pattern : String) (max_differences : Nat) :
    (∀ e ∈ find_similar_patterns messages reference_pattern max_differences,
      e.2 ≠ 0) ∧
    find_similar_patterns messages reference_pattern 0 = [] := by
  constructor
  · intro e he
    have he' : e ∈ messages.foldl
        (similarStep (pySplit reference_pattern) max_differences) [] :=
      (List.perm_insertionSort _ _).subset he
    have hpos : ∀ x ∈ messages.foldl
        (similarStep (pySplit reference_pattern) max_differences) [],
        0 < x.2 := by
      have haux : ∀ (msgs : List CANMessage) (acc : List (String × Nat)),
          (∀ x ∈ acc, 0 < x.2) →
          ∀ x ∈ msgs.foldl
            (similarStep (pySplit reference_pattern) max_differences) acc,
            0 < x.2 := by
        intro msgs
        induction msgs with
        | nil => intro acc h; exact h
        | cons m rest ih =>
          intro acc h
          rw [List.foldl_cons]
          exact ih _ (similarStep_pos _ _ acc m h)
      exact haux messages [] (by simp)
    exact Nat.pos_iff_ne_zero.mp (hpos e he')
  · unfold find_similar_patterns
    rw [foldl_similarStep_zero]
    rfl

/-- Witness for C9: reference `"AA 02"` against one record with payload
`AA 01` yields the distance-1 entry, which is nonzero; with bound 0 the
result is empty. -/
theorem C9_find_similar_patterns_witness :
    (("AA 01", 1) : String × Nat).2 ≠ 0 ∧
    find_similar_patterns [w9m] "AA 02" 0 = [] :=
  ⟨(C9_find_similar_patterns [w9m] "AA 02" 1).1 ("AA 01", 1)
      (by with_unfolding_all decide),
   (C9_find_similar_patterns [w9m] "AA 02" 0).2⟩

/-! ### Claim C8 -/

/-- Claim C8: fatal versus degenerate outcome. An unopenable log source
(`none`) yields the distinct `fileNotFound` diagnostic and no success
summary, while every readable log — including one parsing to zero records —
yields a success summary and never `fileNotFound`; the two outcomes are
observably different. -/
theorem C8_parse_file_outcomes :
    (parse_file none).2 = [LogOutput.fileNotFound] ∧
    (∀ lines, LogOutput.fileNotFound ∉ (parse_file (some lines)).2 ∧
      LogOutput.successSummary (parse_file (some lines)).1.length ∈
        (parse_file (some lines)).2) ∧
    parse_file none ≠ parse_file (some []) := by
  refine ⟨rfl, ?_, by with_unfolding_all decide⟩
  intro lines
  simp only [parse_file]
  constructor
  · intro hmem
    rcases List.mem_append.mp hmem with h | h
    · simp at h
    · split at h <;> simp at h
  · exact List.mem_append_left _ (List.mem_singleton.mpr rfl)

/-- Witness for C8: the unreadable source and the empty readable log are
distinguishable outcomes. -/
theorem C8_parse_file_outcomes_witness :
    parse_file none ≠ parse_file (some []) :=
  C8_parse_file_outcomes.2.2

/-! ### Helper lemmas for the emitted-candidate claims -/

theorem entry_values_ne_nil (msgs : List CANMessage) :
    ∀ (acc : List (String × List CANMessage)),
      (∀ e ∈ acc, e.2 ≠ []) →
      ∀ e ∈ msgs.foldl addToPattern acc, e.2 ≠ [] := by
  induction msgs with
  | nil => intro acc h; exact h
  | cons m rest ih =>
    intro acc h
    rw [List.foldl_cons]
    apply ih
    intro e he
    unfold addToPattern at he
    by_cases hin : (acc.any fun x => decide (x.1 = m.data_signature)) = true
    · rw [if_pos hin] at he
      obtain ⟨e', he', hfe⟩ := List.mem_map.mp he
      by_cases hk : e'.1 = m.data_signature
      · rw [if_pos hk] at hfe
        rw [← hfe]
        simp
      · rw [if_neg hk] at hfe
        exact hfe ▸ h e' he'
    · rw [if_neg hin] at he
      rcases List.mem_append.mp he with hacc | hnew
      · exact h e hacc
      · rw [List.mem_singleton] at hnew
        subst hnew
        simp

theorem messages_by_pattern_value_ne_nil (messages : List CANMessage)
    (e : String × List CANMessage) (h : e ∈ messages_by_pattern messages) :
    e.2 ≠ [] :=
  entry_values_ne_nil messages [] (by simp) e h

theorem sorted_timestamps (ms : List CANMessage) :
    List.Sorted (· ≤ ·) ((List.insertionSort msgLe ms).map (·.timestamp)) :=
  List.Pairwise.map _ (fun _ _ h => h) (List.sorted_insertionSort msgLe ms)

theorem matchDeltas_ne_nil (ts tts : List ℚ) (r : ℚ)
    (hs : List.Sorted (· ≤ ·) ts) (x : ℚ) (hx : x ∈ ts) (ft : ℚ)
    (hft : ft ∈ tts) (hr : |x - ft| ≤ r) : matchDeltas ts tts r ≠ [] := by
  obtain ⟨y, hy, heq, hmin⟩ :=
    nearest_delta_min ts ft hs (List.ne_nil_of_mem hx)
  have hd : |y - ft| ≤ r := le_trans (hmin x hx) hr
  apply List.ne_nil_of_mem (a := (y - ft, ft + (y - ft)))
  apply List.mem_filterMap.mpr
  refine ⟨ft, hft, ?_⟩
  rw [heq]
  simp only
  rw [if_neg (not_lt.mpr hd)]

theorem getD_nonneg (l : List ℚ) (h : ∀ x ∈ l, 0 ≤ x) (i : Nat) :
    0 ≤ l.getD i 0 := by
  by_cases hi : i < l.length
  · rw [List.getD_eq_getElem _ _ hi]
    exact h _ (List.getElem_mem hi)
  · rw [List.getD_eq_default _ _ (by omega)]

theorem pyMedian_nonneg (l : List ℚ) (h : ∀ x ∈ l, 0 ≤ x) :
    0 ≤ pyMedian l := by
  simp only [pyMedian]
  have hs : ∀ x ∈ List.insertionSort (· ≤ ·) l, 0 ≤ x := fun x hx =>
    h x ((List.perm_insertionSort _ l).subset hx)
  split
  · exact getD_nonneg _ hs _
  · have h1 := getD_nonneg _ hs ((List.insertionSort (· ≤ ·) l).length / 2 - 1)
    have h2 := getD_nonneg _ hs ((List.insertionSort (· ≤ ·) l).length / 2)
    positivity

theorem tightness_bounds (m : ℚ) (hm : 0 ≤ m) :
    0 < tightnessOf (some m) ∧ tightnessOf (some m) ≤ 1 := by
  unfold tightnessOf
  constructor
  · positivity
  · rw [div_le_one (by linarith)]
    linarith

/-! ### Claim C10 -/

/-- Claim C10: emitted candidates have finite statistics. For a non-empty
fire-time list, every candidate emitted by `find_command_candidates` has at
least one matched fire time, so its median/mean/max absolute deltas are
present (never the infinity sentinel, modelled `none`) and its tightness lies
in `(0, 1]`. -/
theorem C10_finite_statistics (messages : List CANMessage)
    (fire_times : List ℚ) (search_radius min_coverage : ℚ)
    (max_candidates : Nat) (hfire : fire_times ≠ []) :
    ∀ c ∈ find_command_candidates messages fire_times search_radius
        min_coverage max_candidates,
      c.median_abs_delta.isSome = true ∧ c.avg_abs_delta.isSome = true ∧
      c.max_abs_delta.isSome = true ∧
      0 < tightnessOf c.median_abs_delta ∧
      tightnessOf c.median_abs_delta ≤ 1 := by
  intro c hc
  obtain ⟨hfne, hmne, pm, hpm, hres⟩ :=
    find_command_candidates_mem messages fire_times search_radius min_coverage
      max_candidates c hc
  obtain ⟨hgate, hscore⟩ := processPattern_eq_some _ _ _ _ _ _ hres
  obtain ⟨p, ms⟩ := pm
  dsimp only at hgate hscore
  have hmsne : ms ≠ [] := messages_by_pattern_value_ne_nil messages (p, ms) hpm
  have hsortne : List.insertionSort msgLe ms ≠ [] := by
    intro hnil
    apply hmsne
    have hlen := List.length_insertionSort msgLe ms
    rw [hnil] at hlen
    exact List.length_eq_zero.mp hlen.symm
  obtain ⟨m0, hm0⟩ := List.exists_mem_of_ne_nil _ hsortne
  have hwin := List.all_eq_true.mp hgate m0 hm0
  obtain ⟨ft, hft, habs⟩ :=
    fireWindows_of_any messages _ search_radius m0.timestamp hwin
  have hm0ts : m0.timestamp ∈ (List.insertionSort msgLe ms).map (·.timestamp) :=
    List.mem_map.mpr ⟨m0, hm0, rfl⟩
  have hmdne := matchDeltas_ne_nil _ _ search_radius (sorted_timestamps ms)
    m0.timestamp hm0ts ft hft habs
  have hfields := scorePattern_eq_some _ _ _ _ _ _ _ hscore
  have habsne :
      ((((matchDeltas ((List.insertionSort msgLe ms).map (·.timestamp))
        (List.insertionSort (· ≤ ·) fire_times) search_radius)).map
          Prod.fst).map fun d => |d|).isEmpty = false := by
    rw [List.isEmpty_eq_false]
    simp only [ne_eq, List.map_eq_nil_iff]
    exact hmdne
  have hmed : c.median_abs_delta =
      some (pyMedian ((((matchDeltas
        ((List.insertionSort msgLe ms).map (·.timestamp))
        (List.insertionSort (· ≤ ·) fire_times) search_radius)).map
          Prod.fst).map fun d => |d|)) := by
    rw [hfields.2.2.2.1, habsne]
    simp
  have havg : c.avg_abs_delta.isSome = true := by
    rw [hfields.2.2.2.2.1, habsne]
    simp
  have hmax : c.max_abs_delta.isSome = true := by
    rw [hfields.2.2.2.2.2.1, habsne]
    simp
  have hnn : 0 ≤ pyMedian ((((matchDeltas
      ((List.insertionSort msgLe ms).map (·.timestamp))
      (List.insertionSort (· ≤ ·) fire_times) search_radius)).map
        Prod.fst).map fun d => |d|) := by
    apply pyMedian_nonneg
    intro x hx
    obtain ⟨d, _, hd⟩ := List.mem_map.mp hx
    rw [← hd]
    exact abs_nonneg d
  have hbounds := tightness_bounds _ hnn
  rw [hmed]
  exact ⟨rfl, havg, hmax, hbounds.1, hbounds.2⟩

/-- Witness for C10: the single-record log at time 10 with fire time 10 and
radius 0 emits one candidate with finite statistics and tightness 1. -/
theorem C10_finite_statistics_witness :
    w10cand.median_abs_delta.isSome = true ∧
    w10cand.avg_abs_delta.isSome = true ∧
    w10cand.max_abs_delta.isSome = true ∧
    0 < tightnessOf w10cand.median_abs_delta ∧
    tightnessOf w10cand.median_abs_delta ≤ 1 :=
  C10_finite_statistics [w10m] [10] 0 (1/2) 15 (by simp) w10cand
    (by with_unfolding_all decide)

/-! ### Claim C6 -/

theorem insertionSort_map_timestamps (messages : List CANMessage)
    (sig : String) (ms : List CANMessage)
    (hms : ms = messages.filter fun m => decide (m.data_signature = sig)) :
    (List.insertionSort msgLe ms).map (·.timestamp) =
      patternTimestamps messages sig := by
  subst hms
  unfold patternTimestamps
  apply List.eq_of_perm_of_sorted (r := (· ≤ ·))
  · exact ((List.perm_insertionSort msgLe _).map _).trans
      (List.perm_insertionSort (· ≤ ·) _).symm
  · exact sorted_timestamps _
  · exact List.sorted_insertionSort _ _

/-- Claim C6 (amended): every candidate emitted by `find_command_candidates`
has `confidence = 0.7 * coverage + 0.3 * tightness`, where
`coverage = (number of matched entries of the fire-time list) /
(length of the fire-time list)` — entries counted with multiplicity, the fire
times being sorted but not deduplicated — and
`tightness = 1 / (1 + median of the absolute deltas of the matched entries)`.
(The claim's "number of distinct fire times" denominator is what fails; see
the counterexample.) -/
theorem C6_confidence_formula (messages : List CANMessage)
    (fire_times : List ℚ) (search_radius min_coverage : ℚ)
    (max_candidates : Nat) :
    ∀ c ∈ find_command_candidates messages fire_times search_radius
        min_coverage max_candidates,
      c.coverage = ((matchedAbsDeltas messages fire_times search_radius
          c.data_signature).length : ℚ) / (fire_times.length : ℚ) ∧
      c.median_abs_delta =
        (if (matchedAbsDeltas messages fire_times search_radius
            c.data_signature).isEmpty then none
          else some (pyMedian (matchedAbsDeltas messages fire_times
            search_radius c.data_signature))) ∧
      c.confidence =
        7/10 * c.coverage + 3/10 * tightnessOf c.median_abs_delta := by
  intro c hc
  obtain ⟨hfne, hmne, pm, hpm, hres⟩ :=
    find_command_candidates_mem messages fire_times search_radius min_coverage
      max_candidates c hc
  obtain ⟨hgate, hscore⟩ := processPattern_eq_some _ _ _ _ _ _ hres
  obtain ⟨p, ms⟩ := pm
  dsimp only at hgate hscore
  have hms := messages_by_pattern_entry messages p ms hpm
  have hfields := scorePattern_eq_some _ _ _ _ _ _ _ hscore
  have hsig : c.data_signature = p := hfields.2.1
  have hts := insertionSort_map_timestamps messages p ms hms
  have htne : (List.insertionSort (· ≤ ·) fire_times).isEmpty = false := by
    rw [List.isEmpty_eq_false]
    intro hnil
    have hlen := List.length_insertionSort (· ≤ ·) fire_times
    rw [hnil] at hlen
    exact hfne (List.length_eq_zero.mp hlen.symm)
  refine ⟨?_, ?_, hfields.2.2.2.2.2.2⟩
  · rw [hfields.2.2.1, htne, hsig]
    simp only [Bool.false_eq_true, if_false, matchedAbsDeltas, List.length_map,
      List.length_insertionSort]
    rw [hts]
  · rw [hfields.2.2.2.1, hsig]
    simp only [matchedAbsDeltas]
    rw [hts]

/-- Claim C6 counterexample: one record at time 10, fire-time list
`[10, 10, 20]`, radius 1/2. The emitted candidate has coverage 2/3 (the
duplicated fire time is matched twice and the denominator counts
multiplicity) and confidence 23/30, whereas the claim's formula over distinct
fire times (`{10, 20}`, one of them matched, median delta 0) demands
coverage 1/2 and confidence `0.7 * (1/2) + 0.3 * 1 = 13/20`. -/
theorem C6_counterexample :
    (find_command_candidates [x6m] [10, 10, 20] (1/2) (1/2) 15).map
      (fun c => (c.coverage, c.confidence)) = [((2:ℚ)/3, (23:ℚ)/30)] ∧
    ¬ ((23:ℚ)/30 = 7/10 * (1/2) + 3/10 * (1/(1+0))) := by
  constructor
  · with_unfolding_all decide
  · with_unfolding_all decide

/-- Witness for C6 on a one-record log with a single fire time. -/
theorem C6_confidence_formula_witness :
    w6cand.coverage = ((matchedAbsDeltas [w6m] [7] 0
        w6cand.data_signature).length : ℚ) / (([(7:ℚ)].length : ℚ)) ∧
    w6cand.median_abs_delta =
      (if (matchedAbsDeltas [w6m] [7] 0 w6cand.data_signature).isEmpty then
        none
      else some (pyMedian (matchedAbsDeltas [w6m] [7] 0
        w6cand.data_signature))) ∧
    w6cand.confidence =
      7/10 * w6cand.coverage + 3/10 * tightnessOf w6cand.median_abs_delta :=
  C6_confidence_formula [w6m] [7] 0 (1/2) 15 w6cand
    (by with_unfolding_all decide)

/-! ### Claim C5 -/

theorem sorted_of_const (l : List ℚ) (t : ℚ) (h : ∀ x ∈ l, x = t) :
    List.Sorted (· ≤ ·) l := by
  induction l with
  | nil => exact List.sorted_nil
  | cons a rest ih =>
    refine List.sorted_cons.mpr
      ⟨?_, ih fun x hx => h x (List.mem_cons_of_mem _ hx)⟩
    intro b hb
    rw [h a (List.mem_cons_self _ _), h b (List.mem_cons_of_mem _ hb)]

theorem pyMedian_singleton (x : ℚ) : pyMedian [x] = x := by
  with_unfolding_all rfl

/-- Claim C5 counterexample: two records with distinct signatures `"BB"` and
`"AA"`, both at timestamp 0; fire time 0, radius 0, min_coverage 1/2,
max_candidates 1. The record `x5a` satisfies every proviso of the claim
(its signature `"AA"` occurs only at the fire time), yet the returned list —
truncated to one candidate, with the tying candidate `"BB"` ranked first in
discovery order — contains no candidate with signature `"AA"`. -/
theorem C5_counterexample :
    x5a ∈ [x5b, x5a] ∧ x5a.timestamp = 0 ∧
    (∀ m ∈ [x5b, x5a], m.data_signature = x5a.data_signature →
      m.timestamp = 0) ∧
    (∀ c ∈ find_command_candidates [x5b, x5a] [0] 0 (1/2) 1,
      c.data_signature ≠ x5a.data_signature) := by
  refine ⟨?_, ?_, ?_, ?_⟩ <;> with_unfolding_all decide

/-- Claim C5 (amended): exact-match correlation. If a record with timestamp
`t` is in the log, every occurrence of its signature is at timestamp exactly
`t` (the claim's proviso at radius 0 with fire time `t`), `min_coverage ≤ 1`,
and the log has at most `max_candidates` distinct signatures (so truncation
cannot drop the candidate — the necessary strengthening shown by the
counterexample), then `find_command_candidates` with `search_radius = 0` and
`fire_times = [t]` returns that record's signature with coverage 1, median
absolute delta 0 and confidence 1. -/
theorem C5_exact_match (messages : List CANMessage) (m : CANMessage) (t : ℚ)
    (min_coverage : ℚ) (max_candidates : Nat)
    (hm : m ∈ messages) (ht : m.timestamp = t) (hmc : min_coverage ≤ 1)
    (hcap : (dedupFirst (messages.map (·.data_signature))).length ≤
      max_candidates)
    (hall : ∀ m' ∈ messages, m'.data_signature = m.data_signature →
      m'.timestamp = t) :
    ∃ c ∈ find_command_candidates messages [t] 0 min_coverage max_candidates,
      c.data_signature = m.data_signature ∧ c.coverage = 1 ∧
      c.median_abs_delta = some 0 ∧ c.confidence = 1 := by
  obtain ⟨ms, hpm⟩ := mem_messages_by_pattern messages m hm
  have hms := messages_by_pattern_entry messages m.data_signature ms hpm
  have htarget : List.insertionSort (α := ℚ) (· ≤ ·) [t] = [t] := rfl
  have hallsorted : ∀ m' ∈ List.insertionSort msgLe ms, m'.timestamp = t := by
    intro m' hm'
    have hm'ms : m' ∈ ms := (List.perm_insertionSort msgLe ms).subset hm'
    rw [hms] at hm'ms
    have h' := List.mem_filter.mp hm'ms
    exact hall m' h'.1 (of_decide_eq_true h'.2)
  have hwint : ((fireWindows messages [t] 0).any fun w => decide (w = t)) =
      true := by
    have hw := fireWindows_contains messages [t] 0 m hm t (by simp)
      (by rw [ht]; simp)
    rw [ht] at hw
    exact hw
  have hgate : ((List.insertionSort msgLe ms).all fun m' =>
      (fireWindows messages [t] 0).any fun w => decide (w = m'.timestamp)) =
        true := by
    apply List.all_eq_true.mpr
    intro m' hm'
    rw [hallsorted m' hm']
    exact hwint
  have hmms : m ∈ ms := by
    rw [hms]
    exact List.mem_filter.mpr ⟨hm, by simp⟩
  have hmsorted : m ∈ List.insertionSort msgLe ms :=
    (List.perm_insertionSort msgLe ms).mem_iff.mpr hmms
  have htsmem : t ∈ (List.insertionSort msgLe ms).map (·.timestamp) :=
    List.mem_map.mpr ⟨m, hmsorted, ht⟩
  have htsconst : ∀ x ∈ (List.insertionSort msgLe ms).map (·.timestamp),
      x = t := by
    intro x hx
    obtain ⟨m', hm', hx'⟩ := List.mem_map.mp hx
    rw [← hx']
    exact hallsorted m' hm'
  have hnd : nearest_delta ((List.insertionSort msgLe ms).map (·.timestamp)) t
      = some 0 := by
    obtain ⟨x, hxmem, heq, _⟩ := nearest_delta_min _ t
      (sorted_of_const _ t htsconst) (List.ne_nil_of_mem htsmem)
    rw [heq, htsconst x hxmem, sub_self]
  have hmd : matchDeltas ((List.insertionSort msgLe ms).map (·.timestamp))
      [t] 0 = [(0, t + 0)] := by
    unfold matchDeltas
    rw [List.filterMap_cons, hnd]
    simp only [List.filterMap_nil]
    rw [if_neg (by simp)]
  have hscore : ∃ c, scorePattern [t] 0 min_coverage m.data_signature
      (pickCanId (List.insertionSort msgLe ms))
      (List.insertionSort msgLe ms) = some c ∧
      c.coverage = 1 ∧ c.median_abs_delta = some 0 ∧ c.confidence = 1 ∧
      c.data_signature = m.data_signature := by
    simp only [scorePattern, hmd]
    have hcov1 : (if ([t] : List ℚ).isEmpty then (0:ℚ)
        else ((([((0:ℚ), t+0)]).length : ℚ) / (([t] : List ℚ).length : ℚ))) =
          1 := by
      norm_num
    rw [hcov1, if_neg (not_lt.mpr hmc)]
    have hmedfield :
        (if ((([((0:ℚ), t+0)]).map Prod.fst).map fun d => |d|).isEmpty then
          (none : Option ℚ)
        else some (pyMedian ((([((0:ℚ), t+0)]).map Prod.fst).map
          fun d => |d|))) = some 0 := by
      simp [pyMedian_singleton]
    rw [hmedfield]
    refine ⟨_, rfl, rfl, rfl, ?_, rfl⟩
    norm_num [tightnessOf]
  obtain ⟨c, hcsome, hcov, hmed, hconf, hcsig⟩ := hscore
  refine ⟨c, ?_, hcsig, hcov, hmed, hconf⟩
  unfold find_command_candidates
  have hmne : messages.isEmpty = false := by
    rw [List.isEmpty_eq_false]
    exact List.ne_nil_of_mem hm
  rw [if_neg (by simp [hmne])]
  simp only [htarget]
  have hlen : (List.insertionSort candGe
      ((messages_by_pattern messages).filterMap
        (processPattern [t] (fireWindows messages [t] 0) 0
          min_coverage))).length ≤ max_candidates := by
    rw [List.length_insertionSort]
    exact le_trans (List.length_filterMap_le _ _)
      (le_of_eq_of_le (messages_by_pattern_length messages) hcap)
  rw [List.take_of_length_le hlen]
  apply (List.perm_insertionSort candGe _).mem_iff.mpr
  apply List.mem_filterMap.mpr
  refine ⟨(m.data_signature, ms), hpm, ?_⟩
  simp only [processPattern]
  rw [if_pos hgate]
  exact hcsome

/-- Witness for C5: a single record at time 5 is returned as the exact-match
candidate with perfect scores. -/
theorem C5_exact_match_witness :
    ∃ c ∈ find_command_candidates [w5m] [5] 0 (1/2) 15,
      c.data_signature = w5m.data_signature ∧ c.coverage = 1 ∧
      c.median_abs_delta = some 0 ∧ c.confidence = 1 :=
  C5_exact_match [w5m] w5m 5 (1/2) 15 (by simp)
    (by with_unfolding_all decide) (by with_unfolding_all decide)
    (by with_unfolding_all decide) (by with_unfolding_all decide)
